import Mathlib

/-!
# Verification of PrismaChat core components

Shallow embedding of the in-memory infrastructure of PrismaChat:
* `TTLCache` (app/core/cache.py): thread-safe cache with TTL expiry and
  LRU eviction backed by an `OrderedDict`;
* `RateLimiter` (app/core/rate_limiter.py): token-bucket rate limiter;
* `InferenceQueue` (app/core/queue.py): bounded async work queue with
  worker tasks resolving per-item futures.

Wall-clock time is passed explicitly (`now`); Python exceptions are
modelled with `Except`; Python floats of the rate limiter are modelled
with `ℚ`.  The `OrderedDict` is modelled as an association list whose
head is the oldest (least recently used) binding and whose last element
is the newest.
-/

namespace PrismaChat

/-! ## TTLCache (app/core/cache.py) -/

/-- One cache slot: the dict `\x7b"value": v, "timestamp": t\x7d` stored by
`TTLCache.set`.  Timestamps are `Nat` seconds. -/
structure Entry (α : Type) where
  value : α
  timestamp : Nat
deriving Repr, DecidableEq

/-- State of a `TTLCache`: the `OrderedDict` (head = oldest binding),
`max_size`, `ttl_seconds`, and the hit/miss counters. -/
structure TTLCache (α : Type) where
  cache : List (String × Entry α)
  maxSize : Nat
  ttlSeconds : Nat
  hits : Nat
  misses : Nat
deriving Repr, DecidableEq

/-- A freshly constructed `TTLCache(max_size, ttl_seconds)`. -/
def TTLCache.empty (α : Type) (maxSize ttlSeconds : Nat) : TTLCache α :=
  ⟨[], maxSize, ttlSeconds, 0, 0⟩

/-- `key in self._cache` / `self._cache[key]` on the association list. -/
def lookupKey {α : Type} (l : List (String × Entry α)) (k : String) : Option (Entry α) :=
  (l.find? (fun p => p.1 == k)).map (fun p => p.2)

/-- `del self._cache[key]`: drop the binding of `k` (keys are unique in an
`OrderedDict`, so filtering removes exactly that binding). -/
def removeKey {α : Type} (l : List (String × Entry α)) (k : String) :
    List (String × Entry α) :=
  l.filter (fun p => p.1 != k)

/-- `self._cache[key] = entry` on an `OrderedDict`: an existing key keeps
its position and gets the new entry; a new key is appended at the end. -/
def odSet {α : Type} (l : List (String × Entry α)) (k : String) (e : Entry α) :
    List (String × Entry α) :=
  if l.any (fun p => p.1 == k) then
    l.map (fun p => if p.1 == k then (k, e) else p)
  else
    l ++ [(k, e)]

/-- `TTLCache.get`: miss if absent; if present but `now - timestamp >
ttl_seconds`, delete the entry and miss; otherwise move the binding to the
end (most recently used) and hit.  Returns the Python return value and the
updated cache state. -/
def TTLCache.get {α : Type} (c : TTLCache α) (now : Nat) (k : String) :
    Option α × TTLCache α :=
  match lookupKey c.cache k with
  | none => (none, { c with misses := c.misses + 1 })
  | some e =>
    if now - e.timestamp > c.ttlSeconds then
      (none, { c with cache := removeKey c.cache k, misses := c.misses + 1 })
    else
      (some e.value,
       { c with cache := removeKey c.cache k ++ [(k, e)], hits := c.hits + 1 })

/-- The eviction loop of `TTLCache.set`:
`while len(self._cache) >= self._max_size: self._cache.popitem(last=False)`.
`popitem` on an empty `OrderedDict` raises `KeyError`, which happens
exactly when the loop is entered with an empty dict (`max_size = 0`). -/
def evictWhile {α : Type} (maxSize : Nat) :
    List (String × Entry α) → Except String (List (String × Entry α))
  | [] => if maxSize = 0 then .error "KeyError" else .ok []
  | x :: xs =>
    if maxSize ≤ xs.length + 1 then evictWhile maxSize xs
    else .ok (x :: xs)

/-- `TTLCache.set`: evict oldest bindings while at capacity, then store
`\x7b"value": v, "timestamp": now\x7d` under `k`. -/
def TTLCache.set {α : Type} (c : TTLCache α) (now : Nat) (k : String) (v : α) :
    Except String (TTLCache α) := do
  let evicted ← evictWhile c.maxSize c.cache
  .ok { c with cache := odSet evicted k ⟨v, now⟩ }

/-- `TTLCache.invalidate`: delete the binding if physically present and
report whether it was; no TTL check is performed. -/
def TTLCache.invalidate {α : Type} (c : TTLCache α) (k : String) :
    Bool × TTLCache α :=
  if c.cache.any (fun p => p.1 == k) then
    (true, { c with cache := removeKey c.cache k })
  else
    (false, c)

/-- `TTLCache.clear`: empty the dict. -/
def TTLCache.clear {α : Type} (c : TTLCache α) : TTLCache α :=
  { c with cache := [] }

/-- `TTLCache.cleanup_expired`: delete every binding with
`now - timestamp > ttl_seconds` and return how many were deleted. -/
def TTLCache.cleanup_expired {α : Type} (c : TTLCache α) (now : Nat) :
    Nat × TTLCache α :=
  let expired := c.cache.filter (fun p => decide (now - p.2.timestamp > c.ttlSeconds))
  (expired.length,
   { c with cache := c.cache.filter (fun p => !decide (now - p.2.timestamp > c.ttlSeconds)) })

/-! Basic facts about the association-list primitives. -/

lemma lookupKey_any {α : Type} {l : List (String × Entry α)} {k : String}
    {e : Entry α} (h : lookupKey l k = some e) :
    l.any (fun p => p.1 == k) = true := by
  unfold lookupKey at h
  rcases Option.map_eq_some'.mp h with ⟨p, hfind, hval⟩
  have hp := List.find?_some hfind
  have hmem := List.mem_of_find?_eq_some hfind
  exact List.any_eq_true.mpr ⟨p, hmem, hp⟩

lemma not_mem_removeKey {α : Type} (l : List (String × Entry α)) (k : String) :
    k ∉ (removeKey l k).map Prod.fst := by
  intro hmem
  rcases List.mem_map.mp hmem with ⟨p, hp, hfst⟩
  have := List.of_mem_filter hp
  simp only [bne_iff_ne, ne_eq] at this
  exact this hfst

lemma get_hit {α : Type} (c : TTLCache α) (now : Nat) (k : String)
    (e : Entry α) (hfind : lookupKey c.cache k = some e)
    (hlive : ¬ now - e.timestamp > c.ttlSeconds) :
    c.get now k = (some e.value,
      { c with cache := removeKey c.cache k ++ [(k, e)], hits := c.hits + 1 }) := by
  simp [TTLCache.get, hfind, hlive]

/-- Claim C6 — TTL semantics of `get`.  If `k` is bound to an entry with
timestamp `T`, then at any `now < T + ttl` the `get` is a hit: it returns
the stored value, bumps `hits`, and refreshes recency by moving the
binding to the end; at any `now > T + ttl` the `get` deletes the binding,
bumps `misses`, and returns none. -/
theorem claim_C6_ttl_expiry {α : Type} (c : TTLCache α) (k : String)
    (e : Entry α) (now : Nat) (hfind : lookupKey c.cache k = some e) :
    (now < e.timestamp + c.ttlSeconds →
      (c.get now k).1 = some e.value ∧
      (c.get now k).2.cache = removeKey c.cache k ++ [(k, e)] ∧
      (c.get now k).2.hits = c.hits + 1) ∧
    (e.timestamp + c.ttlSeconds < now →
      (c.get now k).1 = none ∧
      (c.get now k).2.cache = removeKey c.cache k ∧
      k ∉ (c.get now k).2.cache.map Prod.fst ∧
      (c.get now k).2.misses = c.misses + 1) := by
  constructor
  · intro hlive
    have hcond : ¬ (now - e.timestamp > c.ttlSeconds) := by omega
    simp [TTLCache.get, hfind, hcond]
  · intro hexp
    have hcond : now - e.timestamp > c.ttlSeconds := by omega
    refine ⟨?_, ?_, ?_, ?_⟩
    · simp [TTLCache.get, hfind, hcond]
    · simp [TTLCache.get, hfind, hcond]
    · have hrm := not_mem_removeKey c.cache k
      simp only [TTLCache.get, hfind]
      rw [if_pos hcond]
      simpa using hrm
    · simp [TTLCache.get, hfind, hcond]

/-- Witness for C6 at a concrete cache: entry stored at time 0 with
ttl 10; a `get` at time 5 hits, a `get` at time 11 deletes and misses. -/
theorem claim_C6_ttl_expiry_witness :
    (({ cache := [("a", ⟨7, 0⟩)], maxSize := 4, ttlSeconds := 10,
        hits := 0, misses := 0 } : TTLCache Nat).get 5 "a").1 = some 7 ∧
    (({ cache := [("a", ⟨7, 0⟩)], maxSize := 4, ttlSeconds := 10,
        hits := 0, misses := 0 } : TTLCache Nat).get 11 "a").1 = none := by
  have h6 := @claim_C6_ttl_expiry Nat
    { cache := [("a", ⟨7, 0⟩)], maxSize := 4, ttlSeconds := 10,
      hits := 0, misses := 0 }
    "a" ⟨7, 0⟩ 5 (by decide)
  have h6b := @claim_C6_ttl_expiry Nat
    { cache := [("a", ⟨7, 0⟩)], maxSize := 4, ttlSeconds := 10,
      hits := 0, misses := 0 }
    "a" ⟨7, 0⟩ 11 (by decide)
  exact ⟨(h6.1 (by decide)).1, (h6b.2 (by decide)).1⟩

/-- Claim C10 — `invalidate` reports physical presence, not TTL
live-ness: if `k` is bound to an entry that is already expired at `now`,
`invalidate` still returns true (and deletes the binding), while a `get`
at `now` treats the entry as absent: it returns none and deletes it. -/
theorem claim_C10_invalidate_expired {α : Type} (c : TTLCache α)
    (k : String) (e : Entry α) (now : Nat)
    (hfind : lookupKey c.cache k = some e)
    (hexp : e.timestamp + c.ttlSeconds < now) :
    (c.invalidate k).1 = true ∧
    (c.invalidate k).2.cache = removeKey c.cache k ∧
    (c.get now k).1 = none ∧
    (c.get now k).2.cache = removeKey c.cache k := by
  have hany := lookupKey_any hfind
  have hcond : now - e.timestamp > c.ttlSeconds := by omega
  refine ⟨?_, ?_, ?_, ?_⟩ <;>
    simp [TTLCache.invalidate, TTLCache.get, hany, hfind, hcond]

/-- Witness for C10: entry stored at time 0, ttl 10, queried at time 11:
`invalidate` returns true although `get` reports a miss. -/
theorem claim_C10_invalidate_expired_witness :
    (({ cache := [("a", ⟨7, 0⟩)], maxSize := 4, ttlSeconds := 10,
        hits := 0, misses := 0 } : TTLCache Nat).invalidate "a").1 = true ∧
    (({ cache := [("a", ⟨7, 0⟩)], maxSize := 4, ttlSeconds := 10,
        hits := 0, misses := 0 } : TTLCache Nat).get 11 "a").1 = none := by
  have h := @claim_C10_invalidate_expired Nat
    { cache := [("a", ⟨7, 0⟩)], maxSize := 4, ttlSeconds := 10,
      hits := 0, misses := 0 }
    "a" ⟨7, 0⟩ 11 (by decide) (by decide)
  exact ⟨h.1, h.2.2.1⟩

/-! ## Sequences of cache operations (for the size invariant) -/

/-- One public `TTLCache` operation, with its wall-clock instant where the
source reads `time.time()`. -/
inductive CacheOp (α : Type) where
  | get (now : Nat) (k : String)
  | set (now : Nat) (k : String) (v : α)
  | invalidate (k : String)
  | clear
  | cleanup (now : Nat)

/-- Apply one operation, keeping only the cache state (return values are
dropped); `set` is the only fallible operation. -/
def applyOp {α : Type} (c : TTLCache α) : CacheOp α → Except String (TTLCache α)
  | .get now k => .ok (c.get now k).2
  | .set now k v => c.set now k v
  | .invalidate k => .ok (c.invalidate k).2
  | .clear => .ok c.clear
  | .cleanup now => .ok (c.cleanup_expired now).2

/-- Run a sequence of operations left to right, stopping at the first
raised exception. -/
def runOps {α : Type} (c : TTLCache α) : List (CacheOp α) → Except String (TTLCache α)
  | [] => .ok c
  | op :: ops => do runOps (← applyOp c op) ops

lemma evictWhile_ok_of_pos {α : Type} (m : Nat) (hm : 1 ≤ m) :
    ∀ l : List (String × Entry α),
      ∃ l', evictWhile m l = .ok l' ∧ l'.length < m := by
  intro l
  induction l with
  | nil =>
    have hne : m ≠ 0 := by omega
    exact ⟨[], by simp [evictWhile, hne], by simpa using hm⟩
  | cons x xs ih =>
    by_cases h : m ≤ xs.length + 1
    · rcases ih with ⟨l', hok, hlen⟩
      exact ⟨l', by simp [evictWhile, h, hok], hlen⟩
    · refine ⟨x :: xs, ?_, by simp; omega⟩
      simp [evictWhile, h]

lemma odSet_length {α : Type} (l : List (String × Entry α)) (k : String)
    (e : Entry α) : (odSet l k e).length ≤ l.length + 1 := by
  unfold odSet
  split
  · simp
  · simp

lemma set_ok {α : Type} (c : TTLCache α) (now : Nat) (k : String) (v : α)
    (hm : 1 ≤ c.maxSize) :
    ∃ c', c.set now k v = .ok c' ∧ c'.cache.length ≤ c.maxSize ∧
      c'.maxSize = c.maxSize := by
  rcases evictWhile_ok_of_pos c.maxSize hm c.cache with ⟨l', hok, hlen⟩
  refine ⟨{ c with cache := odSet l' k ⟨v, now⟩ }, ?_, ?_, rfl⟩
  · unfold TTLCache.set
    rw [hok]
    rfl
  · have := odSet_length l' k (⟨v, now⟩ : Entry α)
    show (odSet l' k ⟨v, now⟩).length ≤ c.maxSize
    omega

lemma removeKey_length_le {α : Type} (l : List (String × Entry α)) (k : String) :
    (removeKey l k).length ≤ l.length :=
  List.length_filter_le _ l

lemma removeKey_length_lt {α : Type} {l : List (String × Entry α)} {k : String}
    (h : l.any (fun p => p.1 == k) = true) :
    (removeKey l k).length < l.length := by
  induction l with
  | nil => simp at h
  | cons x xs ih =>
    simp only [List.any_cons, Bool.or_eq_true] at h
    by_cases hx : (x.1 == k) = true
    · have hbne : (x.1 != k) = false := by simp [bne, hx]
      have hle := List.length_filter_le (fun p : String × Entry α => p.1 != k) xs
      simp [removeKey, List.filter_cons, hbne]
      omega
    · have hxs : xs.any (fun p => p.1 == k) = true := by tauto
      have hbne : (x.1 != k) = true := by simp [bne, hx]
      have ihx := ih hxs
      simp only [removeKey] at ihx
      simp [removeKey, List.filter_cons, hbne]
      omega

lemma get_maxSize {α : Type} (c : TTLCache α) (now : Nat) (k : String) :
    (c.get now k).2.maxSize = c.maxSize := by
  cases hfind : lookupKey c.cache k with
  | none => simp [TTLCache.get, hfind]
  | some e =>
    by_cases hc : now - e.timestamp > c.ttlSeconds <;>
      simp [TTLCache.get, hfind, hc]

lemma get_length_le {α : Type} (c : TTLCache α) (now : Nat) (k : String) :
    (c.get now k).2.cache.length ≤ c.cache.length := by
  cases hfind : lookupKey c.cache k with
  | none => simp [TTLCache.get, hfind]
  | some e =>
    have hany := lookupKey_any hfind
    have hlt := removeKey_length_lt hany
    by_cases hc : now - e.timestamp > c.ttlSeconds
    · have hcache : (c.get now k).2.cache = removeKey c.cache k := by
        simp [TTLCache.get, hfind, hc]
      rw [hcache]
      omega
    · have hcache : (c.get now k).2.cache = removeKey c.cache k ++ [(k, e)] := by
        simp [TTLCache.get, hfind, hc]
      rw [hcache]
      simp only [List.length_append, List.length_cons, List.length_nil]
      omega

lemma applyOp_inv {α : Type} (c : TTLCache α) (op : CacheOp α)
    (hm : 1 ≤ c.maxSize) (hlen : c.cache.length ≤ c.maxSize) :
    ∃ c', applyOp c op = .ok c' ∧ c'.cache.length ≤ c'.maxSize ∧
      c'.maxSize = c.maxSize := by
  cases op with
  | get now k =>
    refine ⟨(c.get now k).2, rfl, ?_, get_maxSize c now k⟩
    have h1 := get_length_le c now k
    have h2 := get_maxSize c now k
    omega
  | set now k v =>
    rcases set_ok c now k v hm with ⟨c', hok, h1, h2⟩
    exact ⟨c', hok, by omega, h2⟩
  | invalidate k =>
    refine ⟨(c.invalidate k).2, rfl, ?_, ?_⟩
    · unfold TTLCache.invalidate
      split
      · show (removeKey c.cache k).length ≤ c.maxSize
        have := removeKey_length_le c.cache k
        omega
      · exact hlen
    · unfold TTLCache.invalidate
      split <;> rfl
  | clear => exact ⟨c.clear, rfl, by simp [TTLCache.clear], rfl⟩
  | cleanup now =>
    refine ⟨(c.cleanup_expired now).2, rfl, ?_, rfl⟩
    simp only [TTLCache.cleanup_expired]
    have := List.length_filter_le
      (fun p : String × Entry α => !decide (now - p.2.timestamp > c.ttlSeconds))
      c.cache
    omega

lemma runOps_inv {α : Type} (ops : List (CacheOp α)) :
    ∀ c : TTLCache α, 1 ≤ c.maxSize → c.cache.length ≤ c.maxSize →
      ∃ c', runOps c ops = .ok c' ∧ c'.cache.length ≤ c'.maxSize ∧
        c'.maxSize = c.maxSize := by
  induction ops with
  | nil => exact fun c hm hlen => ⟨c, rfl, hlen, rfl⟩
  | cons op ops ih =>
    intro c hm hlen
    rcases applyOp_inv c op hm hlen with ⟨c₁, hok, h1, h2⟩
    rcases ih c₁ (by omega) h1 with ⟨c', hok', h1', h2'⟩
    refine ⟨c', ?_, h1', by omega⟩
    show (applyOp c op >>= fun x => runOps x ops) = Except.ok c'
    rw [hok]
    exact hok'

/-- Claim C9 (amended) — for `max_size ≥ 1`, every sequence of cache
operations starting from an empty cache succeeds (in particular `set`
never raises) and the number of stored entries never exceeds `max_size`. -/
theorem claim_C9_size_invariant {α : Type} (ops : List (CacheOp α))
    (maxSize ttl : Nat) (hm : 1 ≤ maxSize) :
    ∃ c', runOps (TTLCache.empty α maxSize ttl) ops = .ok c' ∧
      c'.cache.length ≤ maxSize := by
  rcases runOps_inv ops (TTLCache.empty α maxSize ttl) hm (by simp [TTLCache.empty]) with
    ⟨c', hok, h1, h2⟩
  exact ⟨c', hok, by simp [TTLCache.empty] at h2; omega⟩

/-- Witness for C9: three sets and a get on a cache of capacity 2 all
succeed and leave at most 2 entries. -/
theorem claim_C9_size_invariant_witness :
    ∃ c' : TTLCache Nat,
      runOps (TTLCache.empty Nat 2 10)
        [CacheOp.set 0 "a" 1, CacheOp.set 0 "b" 2, CacheOp.get 0 "a",
         CacheOp.set 0 "c" 3] = .ok c' ∧
      c'.cache.length ≤ 2 :=
  claim_C9_size_invariant
    [CacheOp.set 0 "a" 1, CacheOp.set 0 "b" 2, CacheOp.get 0 "a",
     CacheOp.set 0 "c" 3] 2 10 (by decide)

/-- Counterexample to C9 as stated: with `max_size = 0` the eviction loop
calls `popitem` on an empty `OrderedDict`, so `set` raises `KeyError`
instead of never raising. -/
theorem claim_C9_counterexample :
    (TTLCache.empty Nat 0 10).set 0 "a" 1 = .error "KeyError" := by
  rfl

/-! ## LRU eviction order (claim C1) -/

lemma evictWhile_noop {α : Type} {m : Nat} {l : List (String × Entry α)}
    (h : l.length < m) : evictWhile m l = .ok l := by
  cases l with
  | nil =>
    have hne : m ≠ 0 := by simp at h; omega
    simp [evictWhile, hne]
  | cons x xs =>
    simp only [List.length_cons] at h
    simp only [evictWhile]
    rw [if_neg (by omega)]

lemma set_eq_of_evict {α : Type} (c : TTLCache α) (now : Nat) (k : String)
    (v : α) (l' : List (String × Entry α))
    (h : evictWhile c.maxSize c.cache = .ok l') :
    c.set now k v = .ok { c with cache := odSet l' k ⟨v, now⟩ } := by
  unfold TTLCache.set
  rw [h]
  rfl

lemma odSet_fresh {α : Type} {l : List (String × Entry α)} {k : String}
    (h : k ∉ l.map Prod.fst) (e : Entry α) : odSet l k e = l ++ [(k, e)] := by
  unfold odSet
  rw [if_neg]
  intro hany
  rcases List.any_eq_true.mp hany with ⟨p, hmem, hp⟩
  exact h (List.mem_map.mpr ⟨p, hmem, by simpa using hp⟩)

lemma removeKey_of_not_mem {α : Type} {l : List (String × Entry α)} {k : String}
    (h : k ∉ l.map Prod.fst) : removeKey l k = l := by
  unfold removeKey
  apply List.filter_eq_self.mpr
  intro p hp
  simp only [bne_iff_ne, ne_eq]
  intro hfst
  exact h (List.mem_map.mpr ⟨p, hp, hfst⟩)

lemma lookupKey_cons_self {α : Type} (k : String) (e : Entry α)
    (l : List (String × Entry α)) : lookupKey ((k, e) :: l) k = some e := by
  simp [lookupKey, List.find?]

lemma set_fresh_append {α : Type} (c : TTLCache α) (now : Nat) (k : String)
    (v : α) (hcap : c.cache.length < c.maxSize)
    (hfresh : k ∉ c.cache.map Prod.fst) :
    c.set now k v = .ok { c with cache := c.cache ++ [(k, ⟨v, now⟩)] } := by
  rw [set_eq_of_evict c now k v c.cache (evictWhile_noop hcap),
    odSet_fresh hfresh]

lemma set_at_capacity {α : Type} (c : TTLCache α) (now : Nat) (k : String)
    (v : α) (p : String × Entry α) (rest : List (String × Entry α))
    (hcc : c.cache = p :: rest) (hlen : c.cache.length = c.maxSize)
    (hfresh : k ∉ rest.map Prod.fst) :
    c.set now k v = .ok { c with cache := rest ++ [(k, ⟨v, now⟩)] } := by
  have hlen' : rest.length + 1 = c.maxSize := by
    rw [hcc] at hlen
    simpa using hlen
  have hev : evictWhile c.maxSize c.cache = .ok rest := by
    rw [hcc]
    simp only [evictWhile]
    rw [if_pos (by omega)]
    exact evictWhile_noop (by omega)
  rw [set_eq_of_evict c now k v rest hev, odSet_fresh hfresh]

/-- Insert a list of key/value pairs via `set`, left to right, all at the
same wall-clock instant. -/
def setAll {α : Type} (c : TTLCache α) (now : Nat) :
    List (String × α) → Except String (TTLCache α)
  | [] => .ok c
  | (k, v) :: rest => do setAll (← c.set now k v) now rest

/-- The entry a `set` at instant `now` stores for a pair. -/
def entryOf {α : Type} (now : Nat) (p : String × α) : String × Entry α :=
  (p.1, ⟨p.2, now⟩)

/-- Master lemma: inserting fresh, pairwise-distinct keys into a cache
appends them in order, and once the cache is full each further insert
evicts exactly the current head (the least recently used binding). -/
lemma setAll_fresh {α : Type} (now : Nat) :
    ∀ (kvs : List (String × α)) (c : TTLCache α),
      1 ≤ c.maxSize →
      c.cache.length ≤ c.maxSize →
      (kvs.map Prod.fst).Nodup →
      (∀ k ∈ kvs.map Prod.fst, k ∉ c.cache.map Prod.fst) →
      ∃ c', setAll c now kvs = .ok c' ∧
        c'.cache = (c.cache ++ kvs.map (entryOf now)).drop
          (c.cache.length + kvs.length - c.maxSize) ∧
        c'.maxSize = c.maxSize ∧ c'.ttlSeconds = c.ttlSeconds := by
  intro kvs
  induction kvs with
  | nil =>
    intro c hm hlen _ _
    refine ⟨c, rfl, ?_, rfl, rfl⟩
    rw [List.map_nil, List.append_nil, List.length_nil,
      Nat.add_zero, Nat.sub_eq_zero_of_le hlen, List.drop_zero]
  | cons kv rest ih =>
    intro c hm hlen hnd hfresh
    obtain ⟨k, v⟩ := kv
    simp only [List.map_cons, List.nodup_cons] at hnd
    have hfk : k ∉ c.cache.map Prod.fst := hfresh k (by simp)
    by_cases hcap : c.cache.length < c.maxSize
    · have hset := set_fresh_append c now k v hcap hfk
      have hfresh' : ∀ k' ∈ rest.map Prod.fst,
          k' ∉ ({ c with cache := c.cache ++ [(k, ⟨v, now⟩)] } :
            TTLCache α).cache.map Prod.fst := by
        intro k' hk'
        simp only [List.map_append, List.map_cons, List.map_nil, List.mem_append,
          List.mem_cons, List.not_mem_nil, or_false]
        rintro (hmem | hkk)
        · exact hfresh k' (by simp [hk']) hmem
        · exact hnd.1 (hkk ▸ hk')
      rcases ih { c with cache := c.cache ++ [(k, ⟨v, now⟩)] }
          hm (by simp; omega) hnd.2 hfresh' with ⟨c', hok, hcache, hms, httl⟩
      refine ⟨c', ?_, ?_, hms, httl⟩
      · show (c.set now k v >>= fun x => setAll x now rest) = .ok c'
        rw [hset]
        exact hok
      · rw [hcache]
        simp only [List.length_append, List.length_cons, List.length_nil,
          List.map_cons, List.append_assoc, List.singleton_append, entryOf]
        have hidx : c.cache.length + 1 + rest.length - c.maxSize
            = c.cache.length + (rest.length + 1) - c.maxSize := by omega
        rw [hidx]
    · have hful : c.cache.length = c.maxSize := by omega
      cases hcc : c.cache with
      | nil =>
        exfalso
        rw [hcc] at hful
        simp at hful
        omega
      | cons p rest' =>
        have hlen' : rest'.length + 1 = c.maxSize := by
          rw [hcc] at hful
          simpa using hful
        have hfk' : k ∉ rest'.map Prod.fst := by
          intro hmem
          exact hfk (by rw [hcc]; simp [hmem])
        have hset := set_at_capacity c now k v p rest' hcc hful hfk'
        have hfresh' : ∀ k' ∈ rest.map Prod.fst,
            k' ∉ ({ c with cache := rest' ++ [(k, ⟨v, now⟩)] } :
              TTLCache α).cache.map Prod.fst := by
          intro k' hk'
          simp only [List.map_append, List.map_cons, List.map_nil, List.mem_append,
            List.mem_cons, List.not_mem_nil, or_false]
          rintro (hmem | hkk)
          · exact hfresh k' (by simp [hk']) (by rw [hcc]; simp [hmem])
          · exact hnd.1 (hkk ▸ hk')
        rcases ih { c with cache := rest' ++ [(k, ⟨v, now⟩)] }
            hm (by simp; omega) hnd.2 hfresh' with ⟨c', hok, hcache, hms, httl⟩
        refine ⟨c', ?_, ?_, hms, httl⟩
        · show (c.set now k v >>= fun x => setAll x now rest) = .ok c'
          rw [hset]
          exact hok
        · rw [hcache]
          simp only [List.length_append, List.length_cons, List.length_nil,
            List.map_cons, List.append_assoc, List.singleton_append, entryOf]
          have hidx : rest'.length + 1 + rest.length - c.maxSize = rest.length := by
            omega
          have hidx2 : rest'.length + 1 + (rest.length + 1) - c.maxSize
              = rest.length + 1 := by omega
          rw [hidx, hidx2, List.cons_append, List.drop_succ_cons]

lemma removeKey_cons_self {α : Type} (k : String) (e : Entry α)
    (l : List (String × Entry α)) (h : k ∉ l.map Prod.fst) :
    removeKey ((k, e) :: l) k = l := by
  unfold removeKey
  rw [List.filter_cons]
  have hkk : (((k, e) : String × Entry α).1 != k) = false := by simp
  rw [hkk]
  simp only [Bool.false_eq_true, if_false]
  exact removeKey_of_not_mem h

lemma map_fst_entryOf {α : Type} (now : Nat) (l : List (String × α)) :
    (l.map (entryOf now)).map Prod.fst = l.map Prod.fst := by
  induction l with
  | nil => rfl
  | cons x xs ih => simp only [List.map_cons, ih, entryOf]

/-- Claim C1 — LRU eviction by access order.  Inserting `M + 1` pairwise
distinct keys into an empty cache of capacity `M ≥ 1` leaves exactly `M`
entries and evicts exactly the first-inserted (least recently used) key;
and if after filling the cache the oldest key `k₀` is touched via a `get`
hit before the extra key is inserted, then `k₀` survives and the
second-inserted key `k₁` is the one evicted. -/
theorem claim_C1_lru_eviction {α : Type} (M ttl now : Nat) (hM : 1 ≤ M)
    (kvs : List (String × α)) (hlen : kvs.length = M + 1)
    (hnd : (kvs.map Prod.fst).Nodup) :
    (∀ k₀ v₀ rest, kvs = (k₀, v₀) :: rest →
      ∃ c', setAll (TTLCache.empty α M ttl) now kvs = .ok c' ∧
        c'.cache.map Prod.fst = rest.map Prod.fst ∧
        c'.cache.length = M) ∧
    (∀ k₀ v₀ k₁ v₁ mid klast vlast,
      kvs = (k₀, v₀) :: (k₁, v₁) :: mid ++ [(klast, vlast)] →
      ∃ c₁, setAll (TTLCache.empty α M ttl) now ((k₀, v₀) :: (k₁, v₁) :: mid)
          = .ok c₁ ∧
        (c₁.get now k₀).1 = some v₀ ∧
        ∃ c₂, ((c₁.get now k₀).2).set now klast vlast = .ok c₂ ∧
          c₂.cache.map Prod.fst = mid.map Prod.fst ++ [k₀, klast] ∧
          k₁ ∉ c₂.cache.map Prod.fst) := by
  constructor
  · rintro k₀ v₀ rest rfl
    rcases setAll_fresh now ((k₀, v₀) :: rest) (TTLCache.empty α M ttl)
        hM (by simp [TTLCache.empty]) hnd (by simp [TTLCache.empty]) with
      ⟨c', hok, hcache, hms, httl⟩
    have hrl : rest.length = M := by
      simp only [List.length_cons] at hlen
      omega
    have hc' : c'.cache = rest.map (entryOf now) := by
      rw [hcache]
      have hidx : (TTLCache.empty α M ttl).cache.length
          + ((k₀, v₀) :: rest).length - (TTLCache.empty α M ttl).maxSize = 1 := by
        simp only [TTLCache.empty, List.length_nil, List.length_cons]
        omega
      rw [hidx]
      simp only [TTLCache.empty, List.nil_append, List.map_cons]
      rw [List.drop_succ_cons, List.drop_zero]
    refine ⟨c', hok, ?_, ?_⟩
    · rw [hc', map_fst_entryOf]
    · rw [hc']
      simp [hrl]
  · rintro k₀ v₀ k₁ v₁ mid klast vlast rfl
    have hml : mid.length + 2 = M := by
      simp only [List.length_cons, List.length_append, List.length_nil] at hlen
      omega
    have hnd2 : (k₀ :: k₁ :: (mid.map Prod.fst ++ [klast])).Nodup := by
      simpa using hnd
    rcases List.nodup_cons.mp hnd2 with ⟨hk0, hnd3⟩
    rcases List.nodup_cons.mp hnd3 with ⟨hk1, hnd4⟩
    rcases List.nodup_append.mp hnd4 with ⟨hmidnd, _, hdisj⟩
    simp only [List.mem_cons, List.mem_append, List.mem_singleton,
      List.not_mem_nil, or_false, not_or] at hk0 hk1
    obtain ⟨hk01, hk0mid, hk0last⟩ := hk0
    obtain ⟨hk1mid, hk1last⟩ := hk1
    have hlastmid : klast ∉ mid.map Prod.fst := fun hm =>
      hdisj hm (List.mem_singleton.mpr rfl)
    have hprefnd : (((k₀, v₀) :: (k₁, v₁) :: mid).map Prod.fst).Nodup := by
      simp only [List.map_cons]
      refine List.nodup_cons.mpr ⟨?_, List.nodup_cons.mpr ⟨hk1mid, hmidnd⟩⟩
      simp only [List.mem_cons, not_or]
      exact ⟨hk01, hk0mid⟩
    rcases setAll_fresh now ((k₀, v₀) :: (k₁, v₁) :: mid) (TTLCache.empty α M ttl)
        hM (by simp [TTLCache.empty]) hprefnd (by simp [TTLCache.empty]) with
      ⟨c₁, hok, hcache, hms, httl⟩
    have hc₁ : c₁.cache
        = (k₀, ⟨v₀, now⟩) :: (k₁, ⟨v₁, now⟩) :: mid.map (entryOf now) := by
      rw [hcache]
      have hidx : (TTLCache.empty α M ttl).cache.length
          + ((k₀, v₀) :: (k₁, v₁) :: mid).length
          - (TTLCache.empty α M ttl).maxSize = 0 := by
        simp only [TTLCache.empty, List.length_nil, List.length_cons]
        omega
      rw [hidx, List.drop_zero]
      simp only [TTLCache.empty, List.nil_append, List.map_cons]
      rfl
    have hfind : lookupKey c₁.cache k₀ = some ⟨v₀, now⟩ := by
      rw [hc₁]
      exact lookupKey_cons_self k₀ ⟨v₀, now⟩ _
    have hlive : ¬ now - (⟨v₀, now⟩ : Entry α).timestamp > c₁.ttlSeconds := by
      simp
    have hget := get_hit c₁ now k₀ ⟨v₀, now⟩ hfind hlive
    have hk0tail : k₀ ∉ ((k₁, (⟨v₁, now⟩ : Entry α)) :: mid.map (entryOf now)).map
        Prod.fst := by
      simp only [List.map_cons, map_fst_entryOf, List.mem_cons, not_or]
      exact ⟨hk01, hk0mid⟩
    have hrk : removeKey c₁.cache k₀
        = (k₁, (⟨v₁, now⟩ : Entry α)) :: mid.map (entryOf now) := by
      rw [hc₁]
      exact removeKey_cons_self k₀ ⟨v₀, now⟩ _ hk0tail
    have hgcache : (c₁.get now k₀).2.cache
        = (k₁, (⟨v₁, now⟩ : Entry α)) ::
          (mid.map (entryOf now) ++ [(k₀, ⟨v₀, now⟩)]) := by
      rw [hget]
      show removeKey c₁.cache k₀ ++ [(k₀, ⟨v₀, now⟩)] = _
      rw [hrk]
      simp
    have hgms : (c₁.get now k₀).2.maxSize = M := by
      rw [hget]
      show c₁.maxSize = M
      rw [hms]
      rfl
    have hglen : (c₁.get now k₀).2.cache.length = (c₁.get now k₀).2.maxSize := by
      rw [hgcache, hgms]
      simp only [List.length_cons, List.length_append, List.length_map,
        List.length_cons, List.length_nil]
      omega
    have hfreshlast : klast ∉ (mid.map (entryOf now) ++ [(k₀, (⟨v₀, now⟩ : Entry α))]).map
        Prod.fst := by
      intro hmem
      simp only [List.map_append, map_fst_entryOf, List.map_cons, List.map_nil,
        List.mem_append, List.mem_cons, List.not_mem_nil, or_false] at hmem
      rcases hmem with h | h
      · exact hlastmid h
      · exact hk0last h.symm
    have hset := set_at_capacity ((c₁.get now k₀).2) now klast vlast
      (k₁, ⟨v₁, now⟩) (mid.map (entryOf now) ++ [(k₀, ⟨v₀, now⟩)])
      hgcache hglen hfreshlast
    refine ⟨c₁, hok, by rw [hget], ?_⟩
    refine ⟨_, hset, ?_, ?_⟩
    · show ((mid.map (entryOf now) ++ [(k₀, (⟨v₀, now⟩ : Entry α))])
        ++ [(klast, (⟨vlast, now⟩ : Entry α))]).map Prod.fst = _
      simp only [List.map_append, map_fst_entryOf, List.map_cons, List.map_nil]
      simp
    · show k₁ ∉ ((mid.map (entryOf now) ++ [(k₀, (⟨v₀, now⟩ : Entry α))])
        ++ [(klast, (⟨vlast, now⟩ : Entry α))]).map Prod.fst
      intro hmem
      simp only [List.map_append, map_fst_entryOf, List.map_cons, List.map_nil,
        List.mem_append, List.mem_cons, List.not_mem_nil, or_false] at hmem
      rcases hmem with (h | h) | h
      · exact hk1mid h
      · exact hk01 h.symm
      · exact hk1last h

/-- Witness for C1 at capacity 2 with keys a, b, c: inserting all three
evicts a; inserting a and b, touching a via `get`, then inserting c
keeps a and evicts b. -/
theorem claim_C1_lru_eviction_witness :
    (∀ k₀ v₀ rest, ([("a", 1), ("b", 2), ("c", 3)] : List (String × Nat))
        = (k₀, v₀) :: rest →
      ∃ c', setAll (TTLCache.empty Nat 2 10) 0 [("a", 1), ("b", 2), ("c", 3)]
          = .ok c' ∧
        c'.cache.map Prod.fst = rest.map Prod.fst ∧
        c'.cache.length = 2) ∧
    (∀ k₀ v₀ k₁ v₁ mid klast vlast,
      ([("a", 1), ("b", 2), ("c", 3)] : List (String × Nat))
        = (k₀, v₀) :: (k₁, v₁) :: mid ++ [(klast, vlast)] →
      ∃ c₁, setAll (TTLCache.empty Nat 2 10) 0 ((k₀, v₀) :: (k₁, v₁) :: mid)
          = .ok c₁ ∧
        (c₁.get 0 k₀).1 = some v₀ ∧
        ∃ c₂, ((c₁.get 0 k₀).2).set 0 klast vlast = .ok c₂ ∧
          c₂.cache.map Prod.fst = mid.map Prod.fst ++ [k₀, klast] ∧
          k₁ ∉ c₂.cache.map Prod.fst) :=
  claim_C1_lru_eviction 2 10 0 (by decide)
    [("a", 1), ("b", 2), ("c", 3)] (by decide) (by decide)

/-! ## RateLimiter (app/core/rate_limiter.py)

Python floats are modelled with `ℚ`; wall-clock instants are passed as
the `now` argument where the source reads `time.time()`. -/

/-- One client's token bucket: the dict
`\x7b"tokens": t, "last_refill": s\x7d`. -/
structure Bucket where
  tokens : ℚ
  lastRefill : ℚ
deriving Repr, DecidableEq

/-- Configuration of a `RateLimiter` (the per-client bucket map is not
needed for the bucket-level claims). -/
structure RateLimiter where
  maxTokens : ℚ
  refillRate : ℚ
deriving Repr, DecidableEq

/-- `RateLimiter._refill`: add `elapsed * refill_rate` tokens, capped at
`max_tokens`, and stamp `last_refill = now`. -/
def RateLimiter.refill (rl : RateLimiter) (b : Bucket) (now : ℚ) : Bucket :=
  let elapsed := now - b.lastRefill
  let newTokens := elapsed * rl.refillRate
  { tokens := min rl.maxTokens (b.tokens + newTokens), lastRefill := now }

/-- `RateLimiter.check` on one client's bucket: refill, then debit `cost`
if the refilled tokens suffice; returns the Python return value and the
updated bucket. -/
def RateLimiter.check (rl : RateLimiter) (b : Bucket) (cost now : ℚ) :
    Bool × Bucket :=
  let b' := rl.refill b now
  if b'.tokens ≥ cost then
    (true, { b' with tokens := b'.tokens - cost })
  else
    (false, b')

/-- `RateLimiter.get_retry_after` on one client's bucket: note the source
reads `bucket["tokens"]` directly without calling `_refill`, and divides
by `refill_rate` unguarded — in Python `x / 0` and `x / 0.0` both raise
`ZeroDivisionError`. -/
def RateLimiter.get_retry_after (rl : RateLimiter) (b : Bucket) (cost : ℚ) :
    Except String ℚ :=
  let needed := cost - b.tokens
  if needed ≤ 0 then .ok 0
  else if rl.refillRate = 0 then .error "ZeroDivisionError"
  else .ok (needed / rl.refillRate)

/-- The retry-after computation as the spec describes it for claim C4:
refill the bucket first, then return `max 0 ((cost - tokens) / rate)`
from the refilled token count. -/
def retryAfterSpec (rl : RateLimiter) (b : Bucket) (cost now : ℚ) : ℚ :=
  let b' := rl.refill b now
  max 0 ((cost - b'.tokens) / rl.refillRate)

/-- Claim C3 — `check` refills then debits.  With
`t' = min maxTokens (tokens + elapsed * rate)`: if `t' ≥ cost` the call
returns true leaving the bucket at `t' - cost`, otherwise it returns
false leaving the bucket at `t'`; in both cases `lastRefill = now`. -/
theorem claim_C3_check_refill_debit (rl : RateLimiter) (b : Bucket)
    (cost now : ℚ) :
    (min rl.maxTokens (b.tokens + (now - b.lastRefill) * rl.refillRate) ≥ cost →
      rl.check b cost now = (true,
        ⟨min rl.maxTokens (b.tokens + (now - b.lastRefill) * rl.refillRate) - cost,
         now⟩)) ∧
    (min rl.maxTokens (b.tokens + (now - b.lastRefill) * rl.refillRate) < cost →
      rl.check b cost now = (false,
        ⟨min rl.maxTokens (b.tokens + (now - b.lastRefill) * rl.refillRate),
         now⟩)) := by
  constructor
  · intro h
    simp only [RateLimiter.check, RateLimiter.refill]
    rw [if_pos h]
  · intro h
    simp only [RateLimiter.check, RateLimiter.refill]
    rw [if_neg (not_le.mpr h)]

/-- Witness for C3: bucket with 0 tokens and 5 elapsed seconds at rate 1:
`check` with cost 1 succeeds and leaves 4 tokens. -/
theorem claim_C3_check_refill_debit_witness :
    (RateLimiter.mk 10 1).check ⟨0, 0⟩ 1 5 = (true, ⟨4, 5⟩) := by
  have h := (claim_C3_check_refill_debit ⟨10, 1⟩ ⟨0, 0⟩ 1 5).1 (by norm_num)
  rw [h]
  norm_num

/-- Claim C4 (amended) — `get_retry_after` does not refill: it computes
from the stored token count as of the last refill, returning
`max 0 ((cost - tokens) / refill_rate)` whenever `refill_rate > 0`. -/
theorem claim_C4_retry_after_no_refill (rl : RateLimiter) (b : Bucket)
    (cost : ℚ) (hrate : 0 < rl.refillRate) :
    rl.get_retry_after b cost
      = .ok (max 0 ((cost - b.tokens) / rl.refillRate)) := by
  unfold RateLimiter.get_retry_after
  by_cases h : cost - b.tokens ≤ 0
  · rw [if_pos h]
    have hd : (cost - b.tokens) / rl.refillRate ≤ 0 := by
      rw [div_le_iff₀ hrate]
      simpa using h
    rw [max_eq_left hd]
  · rw [if_neg h, if_neg (ne_of_gt hrate)]
    have hd : 0 ≤ (cost - b.tokens) / rl.refillRate :=
      le_of_lt (div_pos (by linarith [not_le.mp h]) hrate)
    rw [max_eq_right hd]

/-- Witness for C4's amended statement at rate 2, stored tokens 0,
cost 1. -/
theorem claim_C4_retry_after_no_refill_witness :
    (RateLimiter.mk 10 2).get_retry_after ⟨0, 0⟩ 1
      = .ok (max 0 ((1 - (0 : ℚ)) / 2)) :=
  claim_C4_retry_after_no_refill ⟨10, 2⟩ ⟨0, 0⟩ 1 (by norm_num)

/-- Counterexample to C4 as stated: a bucket with 0 stored tokens whose
last refill was 5 seconds ago at rate 1.  Refilling first (as the claim
says) would give 5 tokens and a retry-after of 0, but the code returns 1
because it never refills. -/
theorem claim_C4_counterexample :
    (RateLimiter.mk 10 1).get_retry_after ⟨0, 0⟩ 1 = .ok 1 ∧
    retryAfterSpec ⟨10, 1⟩ ⟨0, 0⟩ 1 5 = 0 ∧ (1 : ℚ) ≠ 0 := by
  refine ⟨?_, ?_, by norm_num⟩
  · simp only [RateLimiter.get_retry_after]
    norm_num
  · simp only [retryAfterSpec, RateLimiter.refill]
    norm_num

/-- Claim C5 — the spec's `max_tokens = 1, refill_rate = 0` scenario:
the first `check` succeeds, the immediate second `check` fails, and
`get_retry_after` then raises `ZeroDivisionError` (it divides
`needed / refill_rate` unguarded) instead of returning a sentinel. -/
theorem claim_C5_retry_after_div_by_zero :
    (RateLimiter.mk 1 0).check ⟨1, 0⟩ 1 0 = (true, ⟨0, 0⟩) ∧
    (RateLimiter.mk 1 0).check ⟨0, 0⟩ 1 0 = (false, ⟨0, 0⟩) ∧
    (RateLimiter.mk 1 0).get_retry_after ⟨0, 0⟩ 1
      = .error "ZeroDivisionError" := by
  refine ⟨?_, ?_, ?_⟩
  · simp only [RateLimiter.check, RateLimiter.refill]
    norm_num
  · simp only [RateLimiter.check, RateLimiter.refill]
    norm_num
  · simp only [RateLimiter.get_retry_after]
    norm_num

/-! ## InferenceQueue (app/core/queue.py)

The pending `asyncio.Queue` is modelled as a list (head = next item a
worker takes).  `asyncio.Queue(maxsize=m)` is unbounded when `m <= 0`,
and `put_nowait` raises `QueueFull` exactly when `0 < m` and the queue
already holds `m` items.  Each `QueueItem` carries what its
`coroutine_factory` does when awaited (`Outcome`), and its future starts
pending at `submit` time. -/

/-- Result of `await item.coroutine_factory()`. -/
inductive Outcome (α ε : Type) where
  | ok (v : α)
  | err (e : ε)
deriving Repr, DecidableEq

/-- A queued task: its id and what its deferred work does. -/
structure WItem (α ε : Type) where
  id : String
  out : Outcome α ε
deriving Repr, DecidableEq

/-- State of an `InferenceQueue`: pending items, `max_queue_size`, and
the two counters touched by the worker. -/
structure InferenceQueue (α ε : Type) where
  queue : List (WItem α ε)
  maxQueueSize : Nat
  totalProcessed : Nat
  totalErrors : Nat
deriving Repr, DecidableEq

/-- `asyncio.Queue.full()`: true iff `maxsize` is positive and reached. -/
def InferenceQueue.full {α ε : Type} (q : InferenceQueue α ε) : Bool :=
  decide (0 < q.maxQueueSize ∧ q.maxQueueSize ≤ q.queue.length)

/-- `InferenceQueue.submit` up to the `await future`: build the item with
a fresh pending future and `put_nowait` it; re-raises `QueueFull` when
the queue is full, leaving the pending items untouched. -/
def InferenceQueue.submit {α ε : Type} (q : InferenceQueue α ε)
    (item : WItem α ε) : Except String (InferenceQueue α ε) :=
  if q.full then .error "QueueFull"
  else .ok { q with queue := q.queue ++ [item] }

/-- Exceptions the worker body can raise while handling one item:
`InvalidStateError` from resolving an already-done future, or the
exception raised by the item's own work. -/
inductive WorkerExn (ε : Type) where
  | invalidState
  | workError (e : ε)
deriving Repr, DecidableEq

/-- An item's result slot (`asyncio.Future`). -/
inductive FutureState (α ε : Type) where
  | pending
  | value (v : α)
  | exn (e : WorkerExn ε)
deriving Repr, DecidableEq

/-- `future.done()`. -/
def FutureState.done {α ε : Type} : FutureState α ε → Bool
  | .pending => false
  | _ => true

/-- The `try:` body of `InferenceQueue._worker` for one item, given the
item's future and the outcome of awaiting its work: on success,
`future.set_result` resolves a pending future and `total_processed` is
then incremented, while a done future makes `set_result` raise
`InvalidStateError`; a failing work raises its own error.  `.error` is an
exception leaving the body for the `except` clause. -/
def tryBody {α ε : Type} (fut : FutureState α ε) (out : Outcome α ε) :
    Except (WorkerExn ε) (FutureState α ε × Nat) :=
  match out with
  | .err e => .error (.workError e)
  | .ok v =>
    match fut with
    | .pending => .ok (.value v, 1)
    | _ => .error .invalidState

/-- The `except Exception` handler: increment `total_errors` (done by the
caller) and `set_exception` only if the future is not yet done. -/
def handleExc {α ε : Type} (fut : FutureState α ε) (ex : WorkerExn ε) :
    FutureState α ε :=
  if fut.done then fut else .exn ex

/-- One worker-loop iteration on one item: run the `try:` body, catch any
exception in the `except Exception` handler.  The result is the final
future state and the increments to `total_processed` and `total_errors`;
an `.error` result would be an exception escaping the iteration (the
handler catches everything, so it never happens). -/
def workerStep {α ε : Type} (fut : FutureState α ε) (out : Outcome α ε) :
    Except (WorkerExn ε) (FutureState α ε × Nat × Nat) :=
  match tryBody fut out with
  | .ok (f, p) => .ok (f, p, 0)
  | .error ex => .ok (handleExc fut ex, 0, 1)

/-- The worker draining a list of items, each with a fresh pending
future: returns every item's final future state (in order) and the totals
of processed and errored items; stops only if an exception escaped an
iteration. -/
def runWorker {α ε : Type} : List (WItem α ε) →
    Except (WorkerExn ε) (List (FutureState α ε) × Nat × Nat)
  | [] => .ok ([], 0, 0)
  | it :: rest =>
    match workerStep FutureState.pending it.out with
    | .error ex => .error ex
    | .ok (f, p, er) =>
      match runWorker rest with
      | .error ex => .error ex
      | .ok (fs, tp, te) => .ok (f :: fs, p + tp, er + te)

/-- The future state an item ends in when its work runs against a fresh
pending future. -/
def finalState {α ε : Type} : Outcome α ε → FutureState α ε
  | .ok v => .value v
  | .err e => .exn (.workError e)

/-- Whether an outcome is a success. -/
def isOk {α ε : Type} : Outcome α ε → Bool
  | .ok _ => true
  | .err _ => false

lemma workerStep_pending {α ε : Type} (out : Outcome α ε) :
    workerStep (FutureState.pending : FutureState α ε) out
      = .ok (finalState out, if isOk out then 1 else 0,
             if isOk out then 0 else 1) := by
  cases out <;> rfl

lemma runWorker_eq {α ε : Type} (items : List (WItem α ε)) :
    runWorker items = .ok (items.map (fun it => finalState it.out),
      (items.filter (fun it => isOk it.out)).length,
      (items.filter (fun it => !isOk it.out)).length) := by
  induction items with
  | nil => rfl
  | cons it rest ih =>
    cases hout : it.out with
    | ok v =>
      simp only [runWorker, workerStep_pending, ih, hout, isOk, finalState,
        List.filter_cons, List.map_cons, if_true]
      simp [hout, Nat.add_comm]
    | err e =>
      simp only [runWorker, workerStep_pending, ih, hout, isOk, finalState,
        List.filter_cons, List.map_cons]
      simp [hout, Nat.add_comm]

/-- Claim C2 (amended) — backpressure: for `max_queue_size ≥ 1`, when the
queue already holds `max_queue_size` pending items, `submit` fails
immediately with `QueueFull` (the pending items are untouched: the raise
happens before any mutation). -/
theorem claim_C2_queue_full_rejects {α ε : Type} (q : InferenceQueue α ε)
    (item : WItem α ε) (hpos : 1 ≤ q.maxQueueSize)
    (hlen : q.queue.length = q.maxQueueSize) :
    q.full = true ∧ q.submit item = .error "QueueFull" := by
  have hfull : q.full = true := by
    simp only [InferenceQueue.full, decide_eq_true_eq]
    omega
  exact ⟨hfull, by simp [InferenceQueue.submit, hfull]⟩

/-- Witness for C2's amended statement: a queue of capacity 1 holding one
item rejects a second submission. -/
theorem claim_C2_queue_full_rejects_witness :
    (⟨[⟨"a", Outcome.ok 1⟩], 1, 0, 0⟩ : InferenceQueue Nat String).full = true ∧
    (⟨[⟨"a", Outcome.ok 1⟩], 1, 0, 0⟩ : InferenceQueue Nat String).submit
        ⟨"b", Outcome.ok 2⟩ = .error "QueueFull" :=
  claim_C2_queue_full_rejects ⟨[⟨"a", Outcome.ok 1⟩], 1, 0, 0⟩
    ⟨"b", Outcome.ok 2⟩ (by decide) (by decide)

/-- Counterexample to C2 as stated: with `max_queue_size = 0` the
underlying `asyncio.Queue` is unbounded, so an `InferenceQueue` whose
queue holds exactly `max_queue_size` (= 0) pending items accepts the
submission instead of failing with `QueueFull`. -/
theorem claim_C2_counterexample :
    (⟨[], 0, 0, 0⟩ : InferenceQueue Nat String).queue.length
      = (⟨[], 0, 0, 0⟩ : InferenceQueue Nat String).maxQueueSize ∧
    (⟨[], 0, 0, 0⟩ : InferenceQueue Nat String).submit ⟨"t", Outcome.ok 1⟩
      = .ok ⟨[⟨"t", Outcome.ok 1⟩], 0, 0, 0⟩ :=
  ⟨rfl, rfl⟩

/-- Claim C7 — error isolation in the worker.  Whatever items surround a
failing item, the worker completes the whole list without crashing, the
failing item's result slot holds exactly its error, `total_errors` is
incremented, and every other item whose work succeeds (before or after
the failure) still gets its value resolved into its own slot. -/
theorem claim_C7_worker_error_isolation {α ε : Type}
    (pre post : List (WItem α ε)) (idf : String) (e : ε) :
    ∃ (fs : List (FutureState α ε)) (tp te : Nat),
      runWorker (pre ++ ⟨idf, Outcome.err e⟩ :: post) = .ok (fs, tp, te) ∧
      fs[pre.length]? = some (.exn (.workError e)) ∧
      1 ≤ te ∧
      (∀ (j : Nat) (it : WItem α ε) (v : α), pre[j]? = some it →
        it.out = Outcome.ok v → fs[j]? = some (.value v)) ∧
      (∀ (j : Nat) (it : WItem α ε) (v : α), post[j]? = some it →
        it.out = Outcome.ok v → fs[pre.length + 1 + j]? = some (.value v)) := by
  refine ⟨_, _, _, runWorker_eq _, ?_, ?_, ?_, ?_⟩
  · rw [List.getElem?_map, List.getElem?_append_right (le_refl pre.length)]
    simp [finalState]
  · have hm : (⟨idf, Outcome.err e⟩ : WItem α ε) ∈
        (pre ++ ⟨idf, Outcome.err e⟩ :: post).filter
          (fun it => !isOk it.out) :=
      List.mem_filter.mpr ⟨by simp, by simp [isOk]⟩
    have hpos := List.length_pos.mpr (List.ne_nil_of_mem hm)
    omega
  · intro j it v hj hout
    have hlt : j < pre.length := by
      by_contra hge
      rw [List.getElem?_eq_none (by omega)] at hj
      exact Option.noConfusion hj
    rw [List.getElem?_map, List.getElem?_append_left hlt, hj]
    simp [finalState, hout]
  · intro j it v hj hout
    rw [List.getElem?_map, List.getElem?_append_right (by omega)]
    have hidx : pre.length + 1 + j - pre.length = j + 1 := by omega
    rw [hidx, List.getElem?_cons_succ, hj]
    simp [finalState, hout]

/-- Witness for C7: items a (succeeds), b (raises), c (succeeds): the
worker finishes all three, b's slot holds its error, and a and c resolve
to their values. -/
theorem claim_C7_worker_error_isolation_witness :
    ∃ (fs : List (FutureState Nat String)) (tp te : Nat),
      runWorker ([⟨"a", Outcome.ok 1⟩] ++ ⟨"b", Outcome.err "boom"⟩ ::
          [⟨"c", Outcome.ok 3⟩] : List (WItem Nat String)) = .ok (fs, tp, te) ∧
      fs[1]? = some (.exn (.workError "boom")) ∧
      1 ≤ te ∧
      (∀ (j : Nat) (it : WItem Nat String) (v : Nat),
        ([⟨"a", Outcome.ok 1⟩] : List (WItem Nat String))[j]? = some it →
        it.out = Outcome.ok v → fs[j]? = some (.value v)) ∧
      (∀ (j : Nat) (it : WItem Nat String) (v : Nat),
        ([⟨"c", Outcome.ok 3⟩] : List (WItem Nat String))[j]? = some it →
        it.out = Outcome.ok v → fs[1 + 1 + j]? = some (.value v)) :=
  claim_C7_worker_error_isolation [⟨"a", Outcome.ok 1⟩] [⟨"c", Outcome.ok 3⟩]
    "b" "boom"

/-- Claim C8 — at most one resolution wins and a second resolution never
crashes the worker: if an item's future is already resolved, one worker
iteration leaves it exactly as it was (on the success path `set_result`
raises `InvalidStateError`, which the blanket `except Exception` catches;
on the error path the `done()` guard skips `set_exception`), the
iteration completes normally (`.ok`, no exception escapes the loop), and
`total_errors` — not `total_processed` — is incremented. -/
theorem claim_C8_single_resolution {α ε : Type} (fut : FutureState α ε)
    (out : Outcome α ε) (hdone : fut ≠ .pending) :
    workerStep fut out = .ok (fut, 0, 1) := by
  cases fut with
  | pending => exact absurd rfl hdone
  | value v => cases out <;> rfl
  | exn ex => cases out <;> rfl

/-- Witness for C8 on a future already resolved to 1: both a successful
and a failing outcome leave it untouched without crashing the step. -/
theorem claim_C8_single_resolution_witness :
    workerStep (FutureState.value 1 : FutureState Nat String) (Outcome.ok 2)
        = .ok (FutureState.value 1, 0, 1) ∧
    workerStep (FutureState.value 1 : FutureState Nat String)
        (Outcome.err "boom") = .ok (FutureState.value 1, 0, 1) :=
  ⟨claim_C8_single_resolution _ _ (by decide),
   claim_C8_single_resolution _ _ (by decide)⟩

end PrismaChat
